import Mathlib

/-!
Verification of `fastapi/utils.py` and the parameter declarators of
`fastapi/param_functions.py`, via a shallow embedding of the relevant
Python functions into Lean.

Conventions of the embedding:
* Python `None | int | str` arguments become an inductive sum type.
* Python exceptions become `Except`: a function that can raise returns
  `Except PyError α`.
* Python `dict` objects become association lists that keep insertion
  order (as CPython dicts do); `list` objects become Lean lists.
* In-place mutation of an argument is made explicit: the embedded
  function returns the final contents of the mutated argument.
-/

namespace FastapiUtils

/-- Python exceptions that the embedded code can raise. -/
inductive PyError where
  | valueError : PyError
  deriving DecidableEq, Repr

/-- The argument type of `is_body_allowed_for_status_code`:
Python `Union[int, str, None]`. -/
inductive StatusCode where
  | none : StatusCode
  | int : Int → StatusCode
  | str : String → StatusCode
  deriving DecidableEq, Repr

/-- The set literal `{"default", "1XX", "2XX", "3XX", "4XX", "5XX"}` from
`is_body_allowed_for_status_code`. -/
def statusTokens : List String := ["default", "1XX", "2XX", "3XX", "4XX", "5XX"]

/-- Membership of the argument in `statusTokens`: Python `in` compares with
`==`, and an `int` or `None` is never equal to a `str`, so only the string
constructor can be a member. -/
def isStatusToken : StatusCode → Bool
  | .str s => s ∈ statusTokens
  | _ => false

/-- Helper for the model of Python `int(str)`: a nonempty all-digit list of
characters read as a natural number. -/
def digitsToNat : List Char → Option Nat
  | [] => Option.none
  | cs =>
    if cs.all Char.isDigit then
      Option.some (cs.foldl (fun a c => 10 * a + (c.toNat - 48)) 0)
    else
      Option.none

/-- Model of the Python builtin `int` applied to a string: optional
surrounding whitespace, an optional sign, then decimal digits; anything
else raises `ValueError`.  (Digit-group underscores accepted by CPython
are not modelled; no claim depends on them.) -/
def pyIntOfString (s : String) : Option Int :=
  let cs := ((s.toList.dropWhile Char.isWhitespace).reverse.dropWhile
      Char.isWhitespace).reverse
  match cs with
  | '+' :: rest => (digitsToNat rest).map Int.ofNat
  | '-' :: rest => (digitsToNat rest).map (fun n => -(n : Int))
  | rest => (digitsToNat rest).map Int.ofNat

/-- The conversion `int(status_code)` from `is_body_allowed_for_status_code`:
an `int` converts to itself, a `str` is parsed (raising `ValueError` on
failure).  The `None` case never reaches the conversion in the source. -/
def pyInt : StatusCode → Except PyError Int
  | .none => .error .valueError
  | .int n => .ok n
  | .str s =>
    match pyIntOfString s with
    | Option.none => .error .valueError
    | Option.some n => .ok n

/-- Embedding of `is_body_allowed_for_status_code` (`fastapi/utils.py`,
lines 26-40). -/
def is_body_allowed_for_status_code (status_code : StatusCode) :
    Except PyError Bool :=
  if status_code = .none then
    .ok true
  else if isStatusToken status_code then
    .ok true
  else
    match pyInt status_code with
    | .error e => .error e
    | .ok current_status_code =>
      .ok (decide (¬ (current_status_code < 200 ∨ current_status_code = 204 ∨
          current_status_code = 304)))

/-- Computation rule: on an integer argument the function reaches the final
`return` of the source. -/
theorem is_body_allowed_int (n : Int) :
    is_body_allowed_for_status_code (.int n) =
      .ok (decide (¬ (n < 200 ∨ n = 204 ∨ n = 304))) := rfl

/-- Computation rule: on a string argument the function first checks the
token set, then parses. -/
theorem is_body_allowed_str (s : String) :
    is_body_allowed_for_status_code (.str s) =
      if s ∈ statusTokens then .ok true
      else
        match pyIntOfString s with
        | Option.none => .error .valueError
        | Option.some n => .ok (decide (¬ (n < 200 ∨ n = 204 ∨ n = 304))) := by
  show (if (decide (s ∈ statusTokens) : Bool) then _ else _) = _
  by_cases h : s ∈ statusTokens
  · simp [h]
  · simp only [h, decide_False, Bool.false_eq_true, if_false, if_neg, pyInt]
    cases pyIntOfString s <;> rfl

/-- C1: `is_body_allowed_for_status_code` matches the documented case table:
`None` gives true, the six tokens give true, integers 204 and 304 give
false, other integers in 200..599 give true, integers below 200 give
false. -/
theorem is_body_allowed_case_table :
    is_body_allowed_for_status_code .none = .ok true ∧
    (∀ s ∈ statusTokens, is_body_allowed_for_status_code (.str s) = .ok true) ∧
    is_body_allowed_for_status_code (.int 204) = .ok false ∧
    is_body_allowed_for_status_code (.int 304) = .ok false ∧
    (∀ n : Int, 200 ≤ n → n ≤ 599 → n ≠ 204 → n ≠ 304 →
      is_body_allowed_for_status_code (.int n) = .ok true) ∧
    (∀ n : Int, n < 200 → is_body_allowed_for_status_code (.int n) = .ok false) := by
  refine ⟨rfl, fun s hs => by fin_cases hs <;> rfl, rfl, rfl, ?_, ?_⟩
  · intro n h1 h2 h3 h4
    rw [is_body_allowed_int]
    simp only [Except.ok.injEq, decide_eq_true_eq]
    omega
  · intro n h1
    rw [is_body_allowed_int]
    simp only [Except.ok.injEq, decide_eq_false_iff_not]
    omega

/-- Witness for C1 at concrete inputs 250 and 150. -/
theorem is_body_allowed_case_table_witness :
    is_body_allowed_for_status_code (.int 250) = .ok true ∧
    is_body_allowed_for_status_code (.int 150) = .ok false :=
  ⟨is_body_allowed_case_table.2.2.2.2.1 250 (by decide) (by decide) (by decide)
      (by decide),
   is_body_allowed_case_table.2.2.2.2.2 150 (by decide)⟩

/-- C8 counterexample: the redirect code 301 is claimed to be "no body",
but the source only rejects codes below 200 and the literals 204 and 304,
so 301 allows a body. -/
theorem is_body_allowed_301_counterexample :
    is_body_allowed_for_status_code (.int 301) = .ok true := rfl

/-- C8 amended: the informational range 100-199 and the literal codes 204
and 304 give "no body"; redirect codes 300-399 other than 304 allow a
body. -/
theorem is_body_allowed_no_body_codes :
    (∀ n : Int, 100 ≤ n → n ≤ 199 →
      is_body_allowed_for_status_code (.int n) = .ok false) ∧
    is_body_allowed_for_status_code (.int 204) = .ok false ∧
    is_body_allowed_for_status_code (.int 304) = .ok false ∧
    (∀ n : Int, 300 ≤ n → n ≤ 399 → n ≠ 304 →
      is_body_allowed_for_status_code (.int n) = .ok true) := by
  refine ⟨?_, rfl, rfl, ?_⟩
  · intro n h1 h2
    rw [is_body_allowed_int]
    simp only [Except.ok.injEq, decide_eq_false_iff_not]
    omega
  · intro n h1 h2 h3
    rw [is_body_allowed_int]
    simp only [Except.ok.injEq, decide_eq_true_eq]
    omega

/-- Witness for the amended C8 at concrete inputs 101 and 302. -/
theorem is_body_allowed_no_body_codes_witness :
    is_body_allowed_for_status_code (.int 101) = .ok false ∧
    is_body_allowed_for_status_code (.int 302) = .ok true :=
  ⟨is_body_allowed_no_body_codes.1 101 (by decide) (by decide),
   is_body_allowed_no_body_codes.2.2.2 302 (by decide) (by decide) (by decide)⟩

/-- C10: on a string that is not a supported token and does not parse as an
integer the function raises `ValueError`; it returns a boolean exactly when
the argument is `None`, a supported token, or integer-valued. -/
theorem is_body_allowed_string_domain :
    (∀ s : String, s ∉ statusTokens → pyIntOfString s = Option.none →
      is_body_allowed_for_status_code (.str s) = .error .valueError) ∧
    is_body_allowed_for_status_code (.str "6XX") = .error .valueError ∧
    is_body_allowed_for_status_code (.str "unknown") = .error .valueError ∧
    (∀ sc : StatusCode,
      (∃ b, is_body_allowed_for_status_code sc = .ok b) ↔
        (sc = .none ∨ isStatusToken sc = true ∨ ∃ n, pyInt sc = .ok n)) := by
  refine ⟨?_, rfl, rfl, ?_⟩
  · intro s hs hparse
    rw [is_body_allowed_str, if_neg hs, hparse]
  · intro sc
    match sc with
    | .none => simp [is_body_allowed_for_status_code]
    | .int n => exact ⟨fun _ => Or.inr (Or.inr ⟨n, rfl⟩), fun _ => ⟨_, rfl⟩⟩
    | .str s =>
      rw [is_body_allowed_str]
      by_cases h : s ∈ statusTokens
      · simp [h, isStatusToken]
      · rw [if_neg h]
        simp only [isStatusToken, h, decide_eq_true_eq, pyInt]
        cases hp : pyIntOfString s with
        | none => simp [hp, h]
        | some n => simp [hp, h]

/-- Witness for C10 at the concrete string "6XX" and the integer 200. -/
theorem is_body_allowed_string_domain_witness :
    is_body_allowed_for_status_code (.str "6XX") = .error .valueError ∧
    (∃ b, is_body_allowed_for_status_code (.int 200) = .ok b) :=
  ⟨is_body_allowed_string_domain.1 "6XX" (by decide) (by decide),
   (is_body_allowed_string_domain.2.2.2 (.int 200)).2
     (Or.inr (Or.inr ⟨200, rfl⟩))⟩

/-- The opening-brace character. -/
def lbrace : Char := Char.ofNat 0x7b

/-- The closing-brace character. -/
def rbrace : Char := Char.ofNat 0x7d

/-- The lazy part `.*?` followed by the closing brace of the pattern used in
`get_path_param_names`: starting right after an opening brace, capture the
shortest run of characters up to the first closing brace.  A newline stops
the match (`.` does not match newlines), and an unterminated group does not
match.  Returns the captured characters and the remainder of the input
after the closing brace. -/
def scanToClose : List Char → Option (List Char × List Char)
  | [] => Option.none
  | c :: rest =>
    if c = rbrace then Option.some ([], rest)
    else if c = '\n' then Option.none
    else
      match scanToClose rest with
      | Option.some (cap, rem) => Option.some (c :: cap, rem)
      | Option.none => Option.none

/-- A successful scan consumes at least the closing brace. -/
theorem scanToClose_length :
    ∀ {l cap rem : List Char}, scanToClose l = Option.some (cap, rem) →
      rem.length < l.length := by
  intro l
  induction l with
  | nil => intro cap rem h; simp [scanToClose] at h
  | cons c rest ih =>
    intro cap rem h
    rw [scanToClose] at h
    by_cases h1 : c = rbrace
    · rw [if_pos h1] at h
      cases h
      simp
    · rw [if_neg h1] at h
      by_cases h2 : c = '\n'
      · rw [if_pos h2] at h; cases h
      · rw [if_neg h2] at h
        cases hs : scanToClose rest with
        | none => rw [hs] at h; cases h
        | some p =>
          rw [hs] at h
          cases p with
          | mk cap2 rem2 =>
            cases h
            exact Nat.lt_succ_of_lt (ih hs)

/-- Embedding of `re.findall("{(.*?)}", path)`: scan left to right; at each
opening brace try the lazy match; on success emit the captured group and
continue after it, otherwise continue with the next character.  The scan is
written with explicit fuel so that it is structurally recursive; every step
consumes at least one character, so fuel equal to the input length (as used
by `findBraceGroups`) never runs out, which `findBraceGroupsFuel_sufficient`
proves. -/
def findBraceGroupsFuel : Nat → List Char → List (List Char)
  | 0, _ => []
  | _ + 1, [] => []
  | fuel + 1, c :: rest =>
    if c = lbrace then
      match scanToClose rest with
      | Option.some (cap, rem) => cap :: findBraceGroupsFuel fuel rem
      | Option.none => findBraceGroupsFuel fuel rest
    else findBraceGroupsFuel fuel rest

/-- The matches of `{(.*?)}` over a character list. -/
def findBraceGroups (l : List Char) : List (List Char) :=
  findBraceGroupsFuel l.length l

/-- Any two fuels at least the input length yield the same scan. -/
theorem findBraceGroupsFuel_congr :
    ∀ (f1 f2 : Nat) (l : List Char), l.length ≤ f1 → l.length ≤ f2 →
      findBraceGroupsFuel f1 l = findBraceGroupsFuel f2 l := by
  intro f1
  induction f1 with
  | zero =>
    intro f2 l h1 _
    rw [Nat.le_zero, List.length_eq_zero] at h1
    subst h1
    cases f2 <;> rfl
  | succ f1 ih =>
    intro f2 l h1 h2
    cases l with
    | nil => cases f2 <;> rfl
    | cons c rest =>
      cases f2 with
      | zero => simp at h2
      | succ f2 =>
        simp only [List.length_cons, Nat.succ_le_succ_iff] at h1 h2
        rw [findBraceGroupsFuel, findBraceGroupsFuel]
        by_cases hc : c = lbrace
        · rw [if_pos hc, if_pos hc]
          cases hs : scanToClose rest with
          | none => rw [ih f2 rest h1 h2]
          | some p =>
            cases p with
            | mk cap rem =>
              have hrem : rem.length < rest.length := scanToClose_length hs
              show cap :: findBraceGroupsFuel f1 rem =
                cap :: findBraceGroupsFuel f2 rem
              rw [ih f2 rem (le_of_lt (lt_of_lt_of_le hrem h1))
                (le_of_lt (lt_of_lt_of_le hrem h2))]
        · rw [if_neg hc, if_neg hc, ih f2 rest h1 h2]

/-- Fuel at least the input length yields the scan itself, so the fuel in
`findBraceGroups` is an artifact of the encoding, not a bound the scan can
hit. -/
theorem findBraceGroupsFuel_sufficient (fuel : Nat) (l : List Char)
    (h : l.length ≤ fuel) : findBraceGroupsFuel fuel l = findBraceGroups l :=
  findBraceGroupsFuel_congr fuel l.length l h le_rfl

/-- Embedding of `get_path_param_names` (`fastapi/utils.py`, lines 43-44):
the Python `set` of the matches becomes a `Finset`. -/
def get_path_param_names (path : String) : Finset String :=
  ((findBraceGroups path.toList).map fun cs => String.mk cs).toFinset

/-- C9: `get_path_param_names` returns exactly the distinct brace-delimited
names found by the scan, duplicates collapsed, and on
"/items/(id)/sub/(name)" (with braces for the parentheses) it returns the
two-element set of "id" and "name". -/
theorem get_path_param_names_spec :
    (∀ path name : String,
      name ∈ get_path_param_names path ↔
        name.toList ∈ findBraceGroups path.toList) ∧
    get_path_param_names "/items/\x7bid\x7d/sub/\x7bname\x7d" =
      {"id", "name"} := by
  constructor
  · intro path name
    simp only [get_path_param_names, List.mem_toFinset, List.mem_map]
    constructor
    · rintro ⟨cs, hcs, rfl⟩
      simpa using hcs
    · intro h
      exact ⟨name.toList, h, by simp⟩
  · decide

/-- Python values as stored in the dictionaries merged by
`deep_dict_update`: dictionaries, lists, and other values (opaque atoms).
`deep_dict_update` only ever compares keys for equality, so string keys
stand in for arbitrary hashable keys.  A dictionary is an association list
in insertion order, as CPython dicts are. -/
inductive PyVal where
  | dict : List (String × PyVal) → PyVal
  | list : List PyVal → PyVal
  | atom : Nat → PyVal

/-- The contents of a Python dict. -/
abbrev PyDict := List (String × PyVal)

/-- Python `d[key]` / `key in d` lookup on the association-list model. -/
def dictGet (d : PyDict) (k : String) : Option PyVal :=
  match d with
  | [] => Option.none
  | (k', v) :: rest => if k' = k then Option.some v else dictGet rest k

/-- Python `d[key] = v` on a CPython dict: an existing key keeps its
position and gets the new value; a new key is appended at the end. -/
def dictSet (d : PyDict) (k : String) (v : PyVal) : PyDict :=
  match d with
  | [] => [(k, v)]
  | (k', v') :: rest =>
    if k' = k then (k', v) :: rest else (k', v') :: dictSet rest k v

/-- Embedding of `deep_dict_update` (`fastapi/utils.py`, lines 168-183).
The Python function mutates `main_dict` in place and returns `None`; the
embedding returns the final contents of `main_dict`.  The iteration over
`update_dict.items()` becomes recursion over the association list, and the
in-place recursive merge of a nested dict becomes storing the merged
nested dict back under its key. -/
def deep_dict_update (main_dict update_dict : PyDict) : PyDict :=
  match update_dict with
  | [] => main_dict
  | (key, value) :: rest =>
    match dictGet main_dict key, value with
    | Option.some (.dict mv), .dict uv =>
      deep_dict_update (dictSet main_dict key (.dict (deep_dict_update mv uv)))
        rest
    | Option.some (.list mv), .list uv =>
      deep_dict_update (dictSet main_dict key (.list (mv ++ uv))) rest
    | _, _ => deep_dict_update (dictSet main_dict key value) rest
termination_by sizeOf update_dict
decreasing_by
  all_goals simp
  all_goals omega

/-- Setting a key then reading it back gives the new value. -/
theorem dictGet_dictSet_self (d : PyDict) (k : String) (v : PyVal) :
    dictGet (dictSet d k v) k = Option.some v := by
  induction d with
  | nil => simp [dictGet, dictSet]
  | cons p rest ih =>
    cases p with
    | mk k' v' =>
      rw [dictSet]
      by_cases h : k' = k
      · rw [if_pos h, dictGet, if_pos h]
      · rw [if_neg h, dictGet, if_neg h, ih]

/-- Setting a key leaves every other key's value unchanged. -/
theorem dictGet_dictSet_ne (d : PyDict) (k k' : String) (v : PyVal)
    (h : k ≠ k') : dictGet (dictSet d k v) k' = dictGet d k' := by
  induction d with
  | nil => simp [dictGet, dictSet, h]
  | cons p rest ih =>
    cases p with
    | mk k0 v0 =>
      rw [dictSet]
      by_cases h0 : k0 = k
      · rw [if_pos h0, dictGet, dictGet, if_neg, if_neg] <;> rw [h0] <;>
          exact h
      · rw [if_neg h0, dictGet, dictGet]
        by_cases h1 : k0 = k'
        · rw [if_pos h1, if_pos h1]
        · rw [if_neg h1, if_neg h1, ih]

/-- A key that is not among a dict's keys has no value. -/
theorem dictGet_eq_none_of_not_mem (d : PyDict) (k : String)
    (h : k ∉ d.map Prod.fst) : dictGet d k = Option.none := by
  induction d with
  | nil => rfl
  | cons p rest ih =>
    cases p with
    | mk k' v =>
      simp only [List.map_cons, List.mem_cons] at h
      push_neg at h
      rw [dictGet, if_neg (fun hk => h.1 hk.symm), ih h.2]

/-- The value stored under one key by one iteration of the loop in
`deep_dict_update`, as a function of the key's old value in `main_dict`
(if any) and its value in `update_dict`: dict/dict merges recursively,
list/list concatenates, anything else overwrites. -/
def mergeStep : Option PyVal → PyVal → PyVal
  | Option.some (.dict mv), .dict uv => .dict (deep_dict_update mv uv)
  | Option.some (.list mv), .list uv => .list (mv ++ uv)
  | _, v => v

/-- The per-key outcome of the whole merge: a key absent from
`update_dict` keeps its old value (if any); a key present in
`update_dict` gets the `mergeStep` of the two values. -/
def mergeOutcome (mv : Option PyVal) : Option PyVal → Option PyVal
  | Option.none => mv
  | Option.some v => Option.some (mergeStep mv v)

/-- `deep_dict_update` on an empty update leaves `main_dict` as it was. -/
theorem deep_dict_update_nil (main : PyDict) :
    deep_dict_update main [] = main := by
  rw [deep_dict_update]

/-- One iteration of the loop stores `mergeStep` of the old and new values
under the key, then continues with the remaining items. -/
theorem deep_dict_update_cons (main : PyDict) (key : String) (value : PyVal)
    (rest : PyDict) :
    deep_dict_update main ((key, value) :: rest) =
      deep_dict_update (dictSet main key (mergeStep (dictGet main key) value))
        rest := by
  rw [deep_dict_update.eq_def]
  show (match dictGet main key, value with
    | Option.some (.dict mv), .dict uv =>
      deep_dict_update (dictSet main key (.dict (deep_dict_update mv uv)))
        rest
    | Option.some (.list mv), .list uv =>
      deep_dict_update (dictSet main key (.list (mv ++ uv))) rest
    | _, _ => deep_dict_update (dictSet main key value) rest) = _
  rcases hm : dictGet main key with _ | mv
  · cases value <;> rfl
  · cases mv <;> cases value <;> rfl

/-- Full per-key characterization of `deep_dict_update`, assuming the
update dict has no duplicate keys (Python dicts cannot have any). -/
theorem dictGet_deep_dict_update (update : PyDict) :
    ∀ (main : PyDict) (k : String), (update.map Prod.fst).Nodup →
      dictGet (deep_dict_update main update) k =
        mergeOutcome (dictGet main k) (dictGet update k) := by
  induction update with
  | nil =>
    intro main k _
    rw [deep_dict_update_nil]
    rfl
  | cons p rest ih =>
    intro main k hnd
    cases p with
    | mk key value =>
      simp only [List.map_cons, List.nodup_cons] at hnd
      obtain ⟨hkey, hrest⟩ := hnd
      rw [deep_dict_update_cons, ih _ k hrest]
      by_cases hk : key = k
      · subst hk
        rw [dictGet_eq_none_of_not_mem rest key hkey,
          dictGet_dictSet_self]
        rw [show dictGet ((key, value) :: rest) key = Option.some value
          from by rw [dictGet, if_pos rfl]]
        rfl
      · rw [dictGet_dictSet_ne main key k _ hk]
        rw [show dictGet ((key, value) :: rest) k = dictGet rest k
          from by rw [dictGet, if_neg hk]]

/-- C3: the merge produced by `deep_dict_update`, key by key: dict/dict
merges recursively, list/list concatenates main's elements first, any
other key of `update_dict` overwrites, and keys of `main_dict` absent
from `update_dict` keep their value. -/
theorem deep_dict_update_merge_cases (main update : PyDict) (k : String)
    (hu : (update.map Prod.fst).Nodup) :
    (∀ mv uv, dictGet main k = Option.some (.dict mv) →
      dictGet update k = Option.some (.dict uv) →
      dictGet (deep_dict_update main update) k =
        Option.some (.dict (deep_dict_update mv uv))) ∧
    (∀ mv uv, dictGet main k = Option.some (.list mv) →
      dictGet update k = Option.some (.list uv) →
      dictGet (deep_dict_update main update) k =
        Option.some (.list (mv ++ uv))) ∧
    (∀ v, dictGet update k = Option.some v →
      (∀ mv uv, ¬(dictGet main k = Option.some (.dict mv) ∧ v = .dict uv)) →
      (∀ mv uv, ¬(dictGet main k = Option.some (.list mv) ∧ v = .list uv)) →
      dictGet (deep_dict_update main update) k = Option.some v) ∧
    (dictGet update k = Option.none →
      dictGet (deep_dict_update main update) k = dictGet main k) := by
  refine ⟨?_, ?_, ?_, ?_⟩
  · intro mv uv h1 h2
    rw [dictGet_deep_dict_update update main k hu, h1, h2]
    rfl
  · intro mv uv h1 h2
    rw [dictGet_deep_dict_update update main k hu, h1, h2]
    rfl
  · intro v hv hnd hnl
    rw [dictGet_deep_dict_update update main k hu, hv]
    rcases hm : dictGet main k with _ | w
    · cases v <;> rfl
    · cases w with
      | dict mv =>
        cases v with
        | dict uv => exact absurd ⟨hm, rfl⟩ (hnd mv uv)
        | list uv => rfl
        | atom a => rfl
      | list mv =>
        cases v with
        | dict uv => rfl
        | list uv => exact absurd ⟨hm, rfl⟩ (hnl mv uv)
        | atom a => rfl
      | atom a => cases v <;> rfl
  · intro hv
    rw [dictGet_deep_dict_update update main k hu, hv]
    rfl

/-- Witness for C3 at concrete inputs: list concatenation under a shared
key, overwrite of an atom, and preservation of an untouched key. -/
theorem deep_dict_update_merge_cases_witness :
    dictGet (deep_dict_update
        [("a", PyVal.list [PyVal.atom 1]), ("b", PyVal.atom 2)]
        [("a", PyVal.list [PyVal.atom 3])]) "a" =
      Option.some (PyVal.list [PyVal.atom 1, PyVal.atom 3]) ∧
    dictGet (deep_dict_update
        [("a", PyVal.list [PyVal.atom 1]), ("b", PyVal.atom 2)]
        [("a", PyVal.list [PyVal.atom 3])]) "b" =
      Option.some (PyVal.atom 2) :=
  ⟨(deep_dict_update_merge_cases _ _ "a" (by decide)).2.1
      [PyVal.atom 1] [PyVal.atom 3] rfl rfl,
   (deep_dict_update_merge_cases _ _ "b" (by decide)).2.2.2 rfl⟩

/-- C7 counterexample: `deep_dict_update` is not pure — it deposits the
merge in `main_dict`, so after merging the one-entry update into an empty
`main_dict` the final contents of `main_dict` differ from its initial
contents. -/
theorem deep_dict_update_mutates_main :
    deep_dict_update [] [("a", PyVal.atom 0)] ≠ [] := by
  rw [deep_dict_update_cons, deep_dict_update_nil]
  simp [dictSet]

/-- C7 amended: the operations are deterministic, but `deep_dict_update`
mutates `main_dict` in place; its effect is confined to the keys of
`update_dict`: an empty update leaves `main_dict` unchanged, and every key
absent from `update_dict` keeps its value. -/
theorem deep_dict_update_effect_frame (main update : PyDict)
    (hu : (update.map Prod.fst).Nodup) :
    (update = [] → deep_dict_update main update = main) ∧
    (∀ k, dictGet update k = Option.none →
      dictGet (deep_dict_update main update) k = dictGet main k) :=
  ⟨fun h => h ▸ deep_dict_update_nil main,
   fun k hk => by rw [dictGet_deep_dict_update update main k hu, hk]; rfl⟩

/-- Witness for the amended C7: the untouched key "b" keeps its value. -/
theorem deep_dict_update_effect_frame_witness :
    dictGet (deep_dict_update [("a", PyVal.atom 1), ("b", PyVal.atom 2)]
        [("a", PyVal.atom 9)]) "b" =
      dictGet [("a", PyVal.atom 1), ("b", PyVal.atom 2)] "b" :=
  (deep_dict_update_effect_frame _ _ (by decide)).2 "b" rfl

/-- The argument universe of `get_value_or_default`: each candidate is
either a `DefaultPlaceholder` (from `fastapi.datastructures`, wrapping a
default value) or a concretely set value of the caller's type.  The
function only ever applies `isinstance(item, DefaultPlaceholder)` to an
item, so the payloads are opaque. -/
inductive DefaultItem where
  | placeholder : Nat → DefaultItem
  | value : Nat → DefaultItem
  deriving DecidableEq, Repr

/-- `isinstance(item, DefaultPlaceholder)`. -/
def isDefaultPlaceholder : DefaultItem → Bool
  | .placeholder _ => true
  | .value _ => false

/-- The loop of `get_value_or_default`: return the first item that is not
a `DefaultPlaceholder`, if any. -/
def firstNonPlaceholder : List DefaultItem → Option DefaultItem
  | [] => Option.none
  | item :: rest =>
    if isDefaultPlaceholder item then firstNonPlaceholder rest
    else Option.some item

/-- Embedding of `get_value_or_default` (`fastapi/utils.py`, lines
186-201): the variadic `*extra_items` becomes a list; the fall-through
after the loop returns `first_item`. -/
def get_value_or_default (first_item : DefaultItem)
    (extra_items : List DefaultItem) : DefaultItem :=
  match firstNonPlaceholder (first_item :: extra_items) with
  | Option.some item => item
  | Option.none => first_item

/-- The loop finds the first non-placeholder of the sequence. -/
theorem firstNonPlaceholder_append (l1 : List DefaultItem)
    (x : DefaultItem) (l2 : List DefaultItem)
    (h1 : ∀ y ∈ l1, isDefaultPlaceholder y = true)
    (hx : isDefaultPlaceholder x = false) :
    firstNonPlaceholder (l1 ++ x :: l2) = Option.some x := by
  induction l1 with
  | nil =>
    rw [List.nil_append, firstNonPlaceholder, hx]
    rfl
  | cons y rest ih =>
    rw [List.cons_append, firstNonPlaceholder,
      h1 y (List.mem_cons_self y rest)]
    exact ih fun z hz => h1 z (List.mem_cons_of_mem y hz)

/-- The loop finds nothing when every item is a placeholder. -/
theorem firstNonPlaceholder_all (l : List DefaultItem)
    (h : ∀ y ∈ l, isDefaultPlaceholder y = true) :
    firstNonPlaceholder l = Option.none := by
  induction l with
  | nil => rfl
  | cons y rest ih =>
    rw [firstNonPlaceholder, h y (List.mem_cons_self y rest)]
    exact ih fun z hz => h z (List.mem_cons_of_mem y hz)

/-- C4: `get_value_or_default` returns the first item of the sequence that
is not a `DefaultPlaceholder` when one exists, and the first item of the
sequence when every item is a `DefaultPlaceholder`. -/
theorem get_value_or_default_spec (first_item : DefaultItem)
    (extra_items : List DefaultItem) :
    (∀ l1 x l2, first_item :: extra_items = l1 ++ x :: l2 →
      (∀ y ∈ l1, isDefaultPlaceholder y = true) →
      isDefaultPlaceholder x = false →
      get_value_or_default first_item extra_items = x) ∧
    ((∀ y ∈ first_item :: extra_items, isDefaultPlaceholder y = true) →
      get_value_or_default first_item extra_items = first_item) := by
  constructor
  · intro l1 x l2 heq h1 hx
    rw [get_value_or_default, heq, firstNonPlaceholder_append l1 x l2 h1 hx]
  · intro h
    rw [get_value_or_default, firstNonPlaceholder_all _ h]

/-- Witness for C4, following the spec's two examples: over
(placeholder, concrete, placeholder) the concrete value is returned, and
over (placeholder, placeholder) the first placeholder is returned. -/
theorem get_value_or_default_spec_witness :
    get_value_or_default (.placeholder 0)
      [.value 5, .placeholder 1] = .value 5 ∧
    get_value_or_default (.placeholder 0) [.placeholder 1] =
      .placeholder 0 :=
  ⟨(get_value_or_default_spec (.placeholder 0)
        [.value 5, .placeholder 1]).1
      [.placeholder 0] (.value 5) [.placeholder 1] rfl (by decide) rfl,
   (get_value_or_default_spec (.placeholder 0) [.placeholder 1]).2
      (by decide)⟩

/-- Opaque handles for the Python objects `create_response_field` passes
through without inspecting: the type, defaults, validators, the model
config and the produced `ModelField`.  Their construction and meaning
belong to pydantic, an external collaborator. -/
abbrev PyObj := Nat

/-- The `FieldInfo` argument assembled by `create_response_field`: either
the caller-supplied one, or — when absent — a fresh
`FieldInfo(annotation=type_, default=default, alias_=alias_)` under pydantic
v2 and a fresh bare `FieldInfo()` under pydantic v1. -/
inductive FieldInfoArg where
  | supplied : PyObj → FieldInfoArg
  | v2New : ( annotation : PyObj) → (default : PyObj) →
      (alias_ : Option String) → FieldInfoArg
  | v1New : FieldInfoArg
  deriving DecidableEq, Repr

/-- The keyword arguments handed to the `ModelField` constructor: always
`name` and `field_info`; under pydantic v1 also `type_`,
`class_validators`, `default`, `required`, `model_config` and `alias_`
(bundled in `v1Extra`). -/
structure ModelFieldKwargs where
  name : String
  field_info : FieldInfoArg
  v1Extra : Option (PyObj × PyObj × PyObj × PyObj × PyObj × Option String)

/-- The exceptions from the external `ModelField` constructor that the
source catches — pydantic signals an unrepresentable type with
`RuntimeError` (v1) or `PydanticSchemaGenerationError` (v2). -/
inductive MFError where
  | runtimeError : MFError
  | pydanticSchemaGenerationError : MFError
  deriving DecidableEq, Repr

/-- `fastapi.exceptions.FastAPIError`, carrying its message. -/
structure FastAPIError where
  message : String
  deriving DecidableEq, Repr

/-- The message of the error raised by `create_response_field`, with the
type interpolated by the f-string. -/
def responseFieldErrorMessage (type_ : PyObj) : String :=
  "Invalid args for response field! Hint: check that " ++ toString type_ ++
  " is a valid Pydantic field type. If you are using a return type " ++
  "annotation that is not a valid Pydantic field (e.g. " ++
  "Union[Response, dict, None]) you can disable generating the response " ++
  "model from the type annotation with the path operation decorator " ++
  "parameter response_model=None. Read more: " ++
  "https://fastapi.tiangolo.com/tutorial/response-model/"

/-- The keyword-argument assembly of `create_response_field`
(`fastapi/utils.py`, lines 60-78): `class_validators or {}` replaces an
absent dict by an empty one (handle 0), the `field_info` default depends
on the pydantic major version, and the v1-only keyword arguments are
added only under v1. -/
def responseFieldKwargs (pydantic_v2 : Bool) (name : String) (type_ : PyObj)
    (class_validators : Option PyObj) (default : PyObj) (required : PyObj)
    (model_config : PyObj) (field_info : Option PyObj)
    (alias_ : Option String) : ModelFieldKwargs :=
  let class_validators := class_validators.getD 0
  let fi : FieldInfoArg :=
    if pydantic_v2 then
      match field_info with
      | Option.some f => .supplied f
      | Option.none => .v2New type_ default alias_
    else
      match field_info with
      | Option.some f => .supplied f
      | Option.none => .v1New
  { name := name
    field_info := fi
    v1Extra :=
      if pydantic_v2 then Option.none
      else
        Option.some (type_, class_validators, default, required,
          model_config, alias_) }

/-- Embedding of `create_response_field` (`fastapi/utils.py`, lines
47-90), parametric in the external `ModelField` constructor `construct`:
the `try`/`except (RuntimeError, PydanticSchemaGenerationError)` becomes a
match on the constructor's outcome, re-raising construction failures as a
`FastAPIError` with the documented message. -/
def create_response_field
    (construct : ModelFieldKwargs → Except MFError PyObj)
    (pydantic_v2 : Bool) (name : String) (type_ : PyObj)
    (class_validators : Option PyObj) (default : PyObj) (required : PyObj)
    (model_config : PyObj) (field_info : Option PyObj)
    (alias_ : Option String) : Except FastAPIError PyObj :=
  match construct (responseFieldKwargs pydantic_v2 name type_
      class_validators default required model_config field_info alias_) with
  | .ok f => .ok f
  | .error _ => .error ⟨responseFieldErrorMessage type_⟩

/-- C6: `create_response_field` raises a `FastAPIError` carrying the
documented hint message exactly when the underlying `ModelField`
construction fails, and returns the constructed field unchanged whenever
construction succeeds. -/
theorem create_response_field_error_iff
    (construct : ModelFieldKwargs → Except MFError PyObj)
    (pydantic_v2 : Bool) (name : String) (type_ : PyObj)
    (class_validators : Option PyObj) (default : PyObj) (required : PyObj)
    (model_config : PyObj) (field_info : Option PyObj)
    (alias_ : Option String) :
    (create_response_field construct pydantic_v2 name type_ class_validators
        default required model_config field_info alias_ =
        .error ⟨responseFieldErrorMessage type_⟩ ↔
      ∃ err, construct (responseFieldKwargs pydantic_v2 name type_
        class_validators default required model_config field_info alias_) =
        .error err) ∧
    (∀ f, construct (responseFieldKwargs pydantic_v2 name type_
        class_validators default required model_config field_info alias_) =
        .ok f →
      create_response_field construct pydantic_v2 name type_
        class_validators default required model_config field_info alias_ =
        .ok f) := by
  constructor
  · rw [create_response_field]
    cases hc : construct (responseFieldKwargs pydantic_v2 name type_
        class_validators default required model_config field_info alias_) with
    | ok f => simp
    | error e => simp
  · intro f hf
    rw [create_response_field, hf]

/-- Witness for C6 with a concrete succeeding constructor and a concrete
failing one. -/
theorem create_response_field_error_iff_witness :
    create_response_field (fun _ => .ok 7) true "f" 3 Option.none 0 0 0
      Option.none Option.none = .ok 7 ∧
    create_response_field (fun _ => .error .runtimeError) true "f" 3
      Option.none 0 0 0 Option.none Option.none =
      .error ⟨responseFieldErrorMessage 3⟩ :=
  ⟨(create_response_field_error_iff (fun _ => .ok 7) true "f" 3 Option.none
      0 0 0 Option.none Option.none).2 7 rfl,
   (create_response_field_error_iff (fun _ => .error .runtimeError) true "f"
      3 Option.none 0 0 0 Option.none Option.none).1.2
     ⟨.runtimeError, rfl⟩⟩

namespace Cloning

/-!
Embedding of `create_cloned_field` (`fastapi/utils.py`, lines 93-142).

Python class objects form a possibly cyclic graph (a recursive model's
fields point back at the class), so `BaseModel` subclasses are
represented by identity by a natural-number id in a heap (`CloneState.types`), and a
field's declared type refers to them by id.  `create_model` allocates a
fresh id from a counter.  The `cloned_types` memo is part of the threaded
state.  The recursion is written with explicit fuel so that it is
structurally recursive; the totality theorems show fuel enough always
exists.
-/

/-- The declared type of a field:
* `atom`: neither a `BaseModel` subclass nor a pydantic dataclass —
  `lenient_issubclass(original_type, BaseModel)` is false (this also
  covers plain dataclasses without `__pydantic_model__`, which
  `is_dataclass`/`hasattr` leave untouched);
* `model`: a `BaseModel` subclass, by identity;
* `dcModel`: a dataclass whose `__pydantic_model__` is the given model,
  which the source substitutes for the dataclass before the subclass
  check. -/
inductive FieldType where
  | atom : Nat → FieldType
  | model : Nat → FieldType
  | dcModel : Nat → FieldType
  deriving DecidableEq, Repr

/-- A pydantic-v1 `ModelField`: its `name`, declared type, the attributes
the source copies wholesale (alias, class validators, default, required,
model config, field info, allow_none, validate_always, the validator
lists, parse_json, shape — bundled opaquely in `attrs`, since
`populate_validators()` recomputes the validator attributes from the
copied class validators), its `sub_fields` (empty list for pydantic's
`None`) and its optional `key_field`. -/
inductive ModelField where
  | mk : String → FieldType → Nat → List ModelField → Option ModelField →
      ModelField

/-- `field.name`. -/
def ModelField.name : ModelField → String
  | .mk n _ _ _ _ => n

/-- `field.type_`. -/
def ModelField.type_ : ModelField → FieldType
  | .mk _ t _ _ _ => t

/-- The wholesale-copied attributes. -/
def ModelField.attrs : ModelField → Nat
  | .mk _ _ a _ _ => a

/-- `field.sub_fields`. -/
def ModelField.sub_fields : ModelField → List ModelField
  | .mk _ _ _ s _ => s

/-- `field.key_field`. -/
def ModelField.key_field : ModelField → Option ModelField
  | .mk _ _ _ _ k => k

/-- A `BaseModel` subclass object: its `__name__` and its `__fields__`
values in order.  (`__fields__` is a dict keyed by the fields' names;
since the cloning loop assigns exactly the key `f.name` for each value
`f` in order, it is represented by the ordered value list.) -/
structure TypeDecl where
  tyname : String
  fields : List ModelField

/-- The heap of class objects together with the `cloned_types` memo that
`create_cloned_field` threads through the recursion. -/
structure CloneState where
  types : List (Nat × TypeDecl)
  nextId : Nat
  cloned_types : List (Nat × Nat)

/-- Association-list lookup used for the heap and the memo. -/
def assocFind {α : Type} : List (Nat × α) → Nat → Option α
  | [], _ => Option.none
  | (k, v) :: rest, t => if k = t then Option.some v else assocFind rest t

/-- Heap lookup: dereference a class object. -/
def findType (st : CloneState) (t : Nat) : Option TypeDecl :=
  assocFind st.types t

/-- `cloned_types.get(original_type)`. -/
def memoLookup (memo : List (Nat × Nat)) (t : Nat) :
    Option Nat :=
  assocFind memo t

/-- Overwrite the `__fields__` of the class object `t` (the cloning loop
`use_type.__fields__[f.name] = ...` run to completion; nested calls never
read the half-updated clone, so performing the whole update at once is
equivalent). -/
def setTypeFields (st : CloneState) (t : Nat)
    (fields : List ModelField) : CloneState :=
  { st with
    types := st.types.map fun p =>
      if p.1 = t then (p.1, { p.2 with fields := fields }) else p }

mutual

/-- The model-type ids referred to by a field, through its declared type,
its sub-fields and its key field. -/
def fieldRefs : ModelField → List Nat
  | .mk _ ty _ subs kf =>
    (match ty with
      | .atom _ => []
      | .model t => [t]
      | .dcModel t => [t]) ++
    fieldListRefs subs ++ fieldOptRefs kf

/-- The model-type ids referred to by a list of fields. -/
def fieldListRefs : List ModelField → List Nat
  | [] => []
  | f :: rest => fieldRefs f ++ fieldListRefs rest

/-- The model-type ids referred to by an optional field. -/
def fieldOptRefs : Option ModelField → List Nat
  | Option.none => []
  | Option.some f => fieldRefs f

end

mutual

/-- Embedding of `create_cloned_field` (`fastapi/utils.py`, lines
93-142), with explicit fuel.  Under `PYDANTIC_V2` the source returns the
field unchanged at once.  Otherwise `original_type = field.type_` with a
dataclass replaced by its `__pydantic_model__`; for a `BaseModel`
subclass, `use_type` is the memoized clone if present, else a fresh
`create_model(original_type.__name__, __base__=original_type)` (a new
class object inheriting the original's name and fields), recorded in
`cloned_types` before its fields are replaced by clones of the
original's fields.  `buildClonedField` then assembles the new field. -/
def create_cloned_field :
    Nat → Bool → ModelField → CloneState → Option (ModelField × CloneState)
  | 0, _, _, _ => Option.none
  | fuel + 1, pydantic_v2, field, st =>
    if pydantic_v2 then Option.some (field, st)
    else
      match
        (match field.type_ with
          | .dcModel t => FieldType.model t
          | ty => ty) with
      | .model t =>
        match memoLookup st.cloned_types t with
        | Option.some t' => buildClonedField fuel field (.model t') st
        | Option.none =>
          match findType st t with
          | Option.none => Option.none
          | Option.some decl =>
            let t' := st.nextId
            let st1 : CloneState :=
              { types := st.types ++ [(t', decl)],
                nextId := st.nextId + 1,
                cloned_types := st.cloned_types ++ [(t, t')] }
            match cloneFieldList fuel decl.fields st1 with
            | Option.none => Option.none
            | Option.some (fields', st2) =>
              buildClonedField fuel field (.model t')
                (setTypeFields st2 t' fields')
      | ty => buildClonedField fuel field ty st

/-- Lines 117-142 of the source: `create_response_field(name=field.name,
type_=use_type)` makes a fresh record (it cannot raise here, since
`use_type` is either the field's own already-valid type or a model
created from one), every plain attribute is copied from `field` (bundled
in `attrs`), a non-empty `sub_fields` list is replaced by clones, and a
present `key_field` is replaced by a clone.  Only reached with
`PYDANTIC_V2` false, so nested clones pass `false`. -/
def buildClonedField :
    Nat → ModelField → FieldType → CloneState →
      Option (ModelField × CloneState)
  | 0, _, _, _ => Option.none
  | fuel + 1, field, use_type, st =>
    match cloneFieldList fuel field.sub_fields st with
    | Option.none => Option.none
    | Option.some (subs', st1) =>
      match field.key_field with
      | Option.none =>
        Option.some
          (.mk field.name use_type field.attrs subs' Option.none, st1)
      | Option.some kf =>
        match create_cloned_field fuel false kf st1 with
        | Option.none => Option.none
        | Option.some (kf', st2) =>
          Option.some
            (.mk field.name use_type field.attrs subs' (Option.some kf'),
              st2)

/-- Clone a list of fields left to right, threading the state: both the
`for f in original_type.__fields__.values()` loop and the `sub_fields`
comprehension. -/
def cloneFieldList :
    Nat → List ModelField → CloneState →
      Option (List ModelField × CloneState)
  | 0, _, _ => Option.none
  | _ + 1, [], st => Option.some ([], st)
  | fuel + 1, f :: rest, st =>
    match create_cloned_field fuel false f st with
    | Option.none => Option.none
    | Option.some (f', st1) =>
      match cloneFieldList fuel rest st1 with
      | Option.none => Option.none
      | Option.some (rest', st2) => Option.some (f' :: rest', st2)

end

/-- Relator on optional values (for `key_field`). -/
inductive OptRel {α β : Type} (r : α → β → Prop) : Option α → Option β → Prop
  | none : OptRel r Option.none Option.none
  | some : ∀ a b, r a b → OptRel r (Option.some a) (Option.some b)

/-- The declared type of a clone: an atom is reused as-is; a model (or the
pydantic model of a dataclass) is replaced by its memoized clone. -/
def typeCloned (memo : List (Nat × Nat)) :
    FieldType → FieldType → Prop
  | .atom a, ty' => ty' = .atom a
  | .model t, ty' =>
    ∃ t', memoLookup memo t = Option.some t' ∧ ty' = .model t'
  | .dcModel t, ty' =>
    ∃ t', memoLookup memo t = Option.some t' ∧ ty' = .model t'

/-- Structural equality of a clone with its original, relative to the
final `cloned_types` memo: same name and plain attributes, the declared
type mapped through the memo, and sub-fields and key field related
pointwise. -/
inductive CloneShape (memo : List (Nat × Nat)) :
    ModelField → ModelField → Prop
  | mk : ∀ (nm : String) (ty ty' : FieldType) (a : Nat)
      (subs subs' : List ModelField) (kf kf' : Option ModelField),
      typeCloned memo ty ty' →
      List.Forall₂ (CloneShape memo) subs subs' →
      OptRel (CloneShape memo) kf kf' →
      CloneShape memo (.mk nm ty a subs kf) (.mk nm ty' a subs' kf')

/-- One memo extends another: every established translation persists
(the memo is only ever appended to, and a key is inserted only when
absent). -/
def MemoExt (m m' : List (Nat × Nat)) : Prop :=
  ∀ u x, memoLookup m u = Option.some x → memoLookup m' u = Option.some x

/-- State well-formedness relative to the list `O` of original class ids:
every heap key is below the allocation counter, both components of every
memo entry are below the counter, and every original class resolves to a
declaration whose fields refer only to original classes. -/
def StateInv (O : List Nat) (st : CloneState) : Prop :=
  (∀ p ∈ st.types, p.1 < st.nextId) ∧
  (∀ p ∈ st.cloned_types, p.1 < st.nextId ∧ p.2 < st.nextId) ∧
  (∀ t ∈ O, ∃ decl, findType st t = Option.some decl ∧
    fieldListRefs decl.fields ⊆ O)

/-- A completed memo entry: the clone class exists, carries the
original's name, and its fields are clones of the original's fields. -/
def pairOK (st : CloneState) (p : Nat × Nat) : Prop :=
  ∃ d d', findType st p.1 = Option.some d ∧
    findType st p.2 = Option.some d' ∧ d'.tyname = d.tyname ∧
    List.Forall₂ (CloneShape st.cloned_types) d.fields d'.fields

/-- The number of original classes not yet in the memo: the quantity the
memoization strictly decreases when a new model type is cloned. -/
def unclonedCount (O : List Nat) (st : CloneState) : Nat :=
  (O.filter fun t => (memoLookup st.cloned_types t).isNone).length

/-- What one cloning step guarantees about the state: the memo only
grows, the allocation counter only grows, every class allocated before
the step is untouched, well-formedness is preserved, the uncloned count
does not increase, every new memo entry maps an original class to a
freshly allocated clone, and — given a set `P` of entries still pending
in enclosing calls — completed entries stay completed. -/
def StepPost (O : List Nat) (st st' : CloneState) : Prop :=
  MemoExt st.cloned_types st'.cloned_types ∧
  st.nextId ≤ st'.nextId ∧
  (∀ u, u < st.nextId → findType st' u = findType st u) ∧
  StateInv O st' ∧
  unclonedCount O st' ≤ unclonedCount O st ∧
  (∀ p ∈ st'.cloned_types,
    p ∈ st.cloned_types ∨ (p.1 ∈ O ∧ st.nextId ≤ p.2)) ∧
  (∀ P : List (Nat × Nat),
    (∀ p ∈ st.cloned_types, pairOK st p ∨ p ∈ P) →
    (∀ p ∈ st'.cloned_types, pairOK st' p ∨ p ∈ P))

/-- Totality-and-correctness contract of one `create_cloned_field` call:
some fuel suffices (and any larger fuel gives the same answer), the
state evolves by a proper cloning step, and the returned field is a
structurally equal clone relative to the final memo. -/
def CCFConc (O : List Nat) (field : ModelField) (st : CloneState) :
    Prop :=
  ∃ fuel f' st',
    (∀ g, fuel ≤ g →
      create_cloned_field g false field st = Option.some (f', st')) ∧
    StepPost O st st' ∧ CloneShape st'.cloned_types field f'

theorem assocFind_append_left {α : Type} {l1 l2 : List (Nat × α)}
    {t : Nat} {x : α} (h : assocFind l1 t = Option.some x) :
    assocFind (l1 ++ l2) t = Option.some x := by
  induction l1 with
  | nil => simp [assocFind] at h
  | cons p rest ih =>
    cases p with
    | mk k v =>
      rw [List.cons_append, assocFind]
      rw [assocFind] at h
      by_cases hk : k = t
      · rwa [if_pos hk] at h ⊢
      · rw [if_neg hk] at h ⊢
        exact ih h

theorem assocFind_append_right {α : Type} {l1 : List (Nat × α)}
    (l2 : List (Nat × α)) {t : Nat}
    (h : assocFind l1 t = Option.none) :
    assocFind (l1 ++ l2) t = assocFind l2 t := by
  induction l1 with
  | nil => rfl
  | cons p rest ih =>
    cases p with
    | mk k v =>
      rw [List.cons_append, assocFind]
      rw [assocFind] at h
      by_cases hk : k = t
      · rw [if_pos hk] at h; cases h
      · rw [if_neg hk] at h ⊢
        exact ih h

theorem assocFind_some_mem {α : Type} {l : List (Nat × α)} {t : Nat}
    {x : α} (h : assocFind l t = Option.some x) : (t, x) ∈ l := by
  induction l with
  | nil => simp [assocFind] at h
  | cons p rest ih =>
    cases p with
    | mk k v =>
      rw [assocFind] at h
      by_cases hk : k = t
      · rw [if_pos hk] at h
        cases h
        subst hk
        exact List.mem_cons_self _ _
      · rw [if_neg hk] at h
        exact List.mem_cons_of_mem _ (ih h)

theorem assocFind_map_set {α : Type} (l : List (Nat × α)) (t : Nat)
    (g : α → α) (u : Nat) :
    assocFind (l.map fun p => if p.1 = t then (p.1, g p.2) else p) u =
      if u = t then (assocFind l u).map g else assocFind l u := by
  induction l with
  | nil => by_cases h : u = t <;> simp [assocFind, h]
  | cons p rest ih =>
    cases p with
    | mk k v =>
      rw [List.map_cons]
      by_cases hk : k = t
      · rw [if_pos hk]
        rw [show ((k, v) : Nat × α).1 = k from rfl] at *
        by_cases hu : k = u
        · subst hu
          rw [assocFind, if_pos rfl, assocFind, if_pos rfl, if_pos hk]
          rfl
        · rw [assocFind, if_neg hu, assocFind, if_neg hu, ih]
      · rw [if_neg hk]
        by_cases hu : k = u
        · subst hu
          rw [assocFind, if_pos rfl, assocFind, if_pos rfl, if_neg hk]
        · rw [assocFind, if_neg hu, assocFind, if_neg hu, ih]

theorem findType_setTypeFields (st : CloneState) (t : Nat)
    (fs : List ModelField) (u : Nat) :
    findType (setTypeFields st t fs) u =
      if u = t then
        (findType st u).map fun d => { d with fields := fs }
      else findType st u :=
  assocFind_map_set st.types t (fun d => { d with fields := fs }) u

theorem setTypeFields_cloned_types (st : CloneState) (t : Nat)
    (fs : List ModelField) :
    (setTypeFields st t fs).cloned_types = st.cloned_types := rfl

theorem setTypeFields_nextId (st : CloneState) (t : Nat)
    (fs : List ModelField) :
    (setTypeFields st t fs).nextId = st.nextId := rfl

theorem setTypeFields_keys_bound (st : CloneState) (t : Nat)
    (fs : List ModelField) (n : Nat) (h : ∀ p ∈ st.types, p.1 < n) :
    ∀ p ∈ (setTypeFields st t fs).types, p.1 < n := by
  intro p hp
  rw [setTypeFields] at hp
  obtain ⟨q, hq, rfl⟩ := List.mem_map.mp hp
  by_cases hqt : q.1 = t
  · rw [if_pos hqt]
    exact h q hq
  · rw [if_neg hqt]
    exact h q hq

theorem memoExt_refl (m : List (Nat × Nat)) : MemoExt m m :=
  fun _ _ h => h

theorem memoExt_trans {m1 m2 m3 : List (Nat × Nat)}
    (h1 : MemoExt m1 m2) (h2 : MemoExt m2 m3) : MemoExt m1 m3 :=
  fun u x h => h2 u x (h1 u x h)

theorem memoExt_append (m l : List (Nat × Nat)) :
    MemoExt m (m ++ l) :=
  fun _ _ h => assocFind_append_left h

theorem typeCloned_mono {m m' : List (Nat × Nat)}
    (hext : MemoExt m m') (ty ty' : FieldType)
    (h : typeCloned m ty ty') : typeCloned m' ty ty' := by
  cases ty with
  | atom a => exact h
  | model t =>
    obtain ⟨t', hl, rfl⟩ := h
    exact ⟨t', hext t t' hl, rfl⟩
  | dcModel t =>
    obtain ⟨t', hl, rfl⟩ := h
    exact ⟨t', hext t t' hl, rfl⟩

theorem cloneShape_mono_aux {m m' : List (Nat × Nat)}
    (hext : MemoExt m m') :
    ∀ k : Nat,
      (∀ f f' : ModelField, sizeOf f ≤ k →
        CloneShape m f f' → CloneShape m' f f') ∧
      (∀ subs subs' : List ModelField, sizeOf subs ≤ k →
        List.Forall₂ (CloneShape m) subs subs' →
        List.Forall₂ (CloneShape m') subs subs') ∧
      (∀ kf kf' : Option ModelField, sizeOf kf ≤ k →
        OptRel (CloneShape m) kf kf' → OptRel (CloneShape m') kf kf') := by
  intro k
  induction k with
  | zero =>
    refine ⟨fun f f' hs _ => absurd hs ?_, fun subs subs' hs h => ?_,
      fun kf kf' hs h => ?_⟩
    · cases f
      simp
    · cases h with
      | nil => exact List.Forall₂.nil
      | cons _ _ => simp at hs
    · cases h with
      | none => exact OptRel.none
      | some a b _ => simp at hs
  | succ k ih =>
    refine ⟨fun f f' hs h => ?_, fun subs subs' hs h => ?_,
      fun kf kf' hs h => ?_⟩
    · cases h with
      | mk nm ty ty' a subs subs' kf kf' hty hsubs hkf =>
        have hsz : sizeOf subs ≤ k ∧ sizeOf kf ≤ k := by
          simp at hs
          omega
        exact CloneShape.mk nm ty ty' a subs subs' kf kf'
          (typeCloned_mono hext ty ty' hty)
          (ih.2.1 subs subs' hsz.1 hsubs)
          (ih.2.2 kf kf' hsz.2 hkf)
    · cases h with
      | nil => exact List.Forall₂.nil
      | @cons a b l1 l2 hab hrest =>
        have hsz : sizeOf a ≤ k ∧ sizeOf l1 ≤ k := by
          simp at hs
          omega
        exact List.Forall₂.cons (ih.1 a b hsz.1 hab)
          (ih.2.1 l1 l2 hsz.2 hrest)
    · cases h with
      | none => exact OptRel.none
      | some a b hab =>
        have hsz : sizeOf a ≤ k := by
          simp at hs
          omega
        exact OptRel.some a b (ih.1 a b hsz hab)

theorem cloneShape_mono {m m' : List (Nat × Nat)}
    (hext : MemoExt m m') {f f' : ModelField}
    (h : CloneShape m f f') : CloneShape m' f f' :=
  (cloneShape_mono_aux hext (sizeOf f)).1 f f' le_rfl h

theorem pairOK_mono {st st' : CloneState} {p : Nat × Nat}
    (hframe : ∀ u, u < st.nextId → findType st' u = findType st u)
    (hext : MemoExt st.cloned_types st'.cloned_types)
    (h1 : p.1 < st.nextId) (h2 : p.2 < st.nextId)
    (hok : pairOK st p) : pairOK st' p := by
  obtain ⟨d, d', hd, hd', hn, hf⟩ := hok
  refine ⟨d, d', ?_, ?_, hn, hf.imp fun a b hab => cloneShape_mono hext hab⟩
  · rw [hframe _ h1]
    exact hd
  · rw [hframe _ h2]
    exact hd'

theorem length_filter_le_of_imp {l : List Nat} {p q : Nat → Bool}
    (h : ∀ a ∈ l, q a = true → p a = true) :
    (l.filter q).length ≤ (l.filter p).length := by
  induction l with
  | nil => simp
  | cons a rest ih =>
    have ht := ih fun b hb hq => h b (List.mem_cons_of_mem a hb) hq
    by_cases hq : q a = true
    · rw [List.filter_cons_of_pos hq,
        List.filter_cons_of_pos (h a (List.mem_cons_self a rest) hq)]
      simpa using ht
    · rw [List.filter_cons_of_neg (by simpa using hq)]
      by_cases hp : p a = true
      · rw [List.filter_cons_of_pos hp]
        exact le_trans ht (by simp)
      · rw [List.filter_cons_of_neg (by simpa using hp)]
        exact ht

theorem length_filter_lt {l : List Nat} {p q : Nat → Bool}
    (h : ∀ a ∈ l, q a = true → p a = true) (t : Nat) (ht : t ∈ l)
    (hpt : p t = true) (hqt : q t = false) :
    (l.filter q).length < (l.filter p).length := by
  induction l with
  | nil => simp at ht
  | cons a rest ih =>
    have hmono := length_filter_le_of_imp
      (fun b hb hq => h b (List.mem_cons_of_mem a hb) hq)
    rcases List.mem_cons.mp ht with rfl | hmem
    · rw [List.filter_cons_of_neg (by simp [hqt]),
        List.filter_cons_of_pos hpt]
      simpa using Nat.lt_succ_of_le hmono
    · have hlt := ih (fun b hb hq => h b (List.mem_cons_of_mem a hb) hq)
        hmem
      by_cases hq : q a = true
      · rw [List.filter_cons_of_pos hq,
          List.filter_cons_of_pos (h a (List.mem_cons_self a rest) hq)]
        simpa using hlt
      · rw [List.filter_cons_of_neg (by simpa using hq)]
        by_cases hp : p a = true
        · rw [List.filter_cons_of_pos hp]
          exact Nat.lt_succ_of_lt hlt
        · rw [List.filter_cons_of_neg (by simpa using hp)]
          exact hlt

theorem unclonedCount_le_of_memoExt (O : List Nat)
    {st st' : CloneState}
    (hext : MemoExt st.cloned_types st'.cloned_types) :
    unclonedCount O st' ≤ unclonedCount O st := by
  refine length_filter_le_of_imp fun t _ hq => ?_
  cases hm : memoLookup st.cloned_types t with
  | none => rfl
  | some x =>
    rw [hext t x hm] at hq
    simp at hq

theorem stepPost_refl (O : List Nat) (st : CloneState)
    (hinv : StateInv O st) : StepPost O st st :=
  ⟨memoExt_refl _, le_rfl, fun _ _ => rfl, hinv, le_rfl,
    fun _ hp => Or.inl hp, fun _ hP => hP⟩

theorem stepPost_trans (O : List Nat) {s1 s2 s3 : CloneState}
    (h12 : StepPost O s1 s2) (h23 : StepPost O s2 s3) :
    StepPost O s1 s3 := by
  obtain ⟨e12, n12, f12, i2, c12, w12, p12⟩ := h12
  obtain ⟨e23, n23, f23, i3, c23, w23, p23⟩ := h23
  refine ⟨memoExt_trans e12 e23, le_trans n12 n23, ?_, i3,
    le_trans c23 c12, ?_, fun P hP => p23 P (p12 P hP)⟩
  · intro u hu
    rw [f23 u (lt_of_lt_of_le hu n12), f12 u hu]
  · intro p hp
    rcases w23 p hp with hin | ⟨ho, hn⟩
    · rcases w12 p hin with hin1 | ⟨ho1, hn1⟩
      · exact Or.inl hin1
      · exact Or.inr ⟨ho1, hn1⟩
    · exact Or.inr ⟨ho, le_trans n12 hn⟩

theorem fieldRefs_eq (nm : String) (ty : FieldType) (a : Nat)
    (subs : List ModelField) (kf : Option ModelField) :
    fieldRefs (.mk nm ty a subs kf) =
      (match ty with
        | .atom _ => []
        | .model t => [t]
        | .dcModel t => [t]) ++
      fieldListRefs subs ++ fieldOptRefs kf := by
  rw [fieldRefs.eq_def]

theorem fieldListRefs_of_mem {f : ModelField} {fs : List ModelField}
    (h : f ∈ fs) : fieldRefs f ⊆ fieldListRefs fs := by
  induction fs with
  | nil => cases h
  | cons g rest ih =>
    rcases List.mem_cons.mp h with rfl | hm
    · rw [fieldListRefs]
      exact List.subset_append_left _ _
    · rw [fieldListRefs]
      exact (ih hm).trans (List.subset_append_right _ _)

theorem sub_fields_refs_subset (nm : String) (ty : FieldType) (a : Nat)
    (subs : List ModelField) (kf : Option ModelField) :
    fieldListRefs subs ⊆ fieldRefs (.mk nm ty a subs kf) := by
  rw [fieldRefs_eq]
  intro x hx
  exact List.mem_append.mpr
    (Or.inl (List.mem_append.mpr (Or.inr hx)))

theorem key_field_refs_subset (nm : String) (ty : FieldType) (a : Nat)
    (subs : List ModelField) (f : ModelField) :
    fieldRefs f ⊆ fieldRefs (.mk nm ty a subs (Option.some f)) := by
  rw [fieldRefs_eq]
  intro x hx
  refine List.mem_append.mpr (Or.inr ?_)
  rw [fieldOptRefs]
  exact hx

theorem cloneFieldList_total (O : List Nat) (n : Nat) :
    ∀ (fields : List ModelField) (st : CloneState),
      StateInv O st → unclonedCount O st ≤ n →
      (∀ f ∈ fields, ∀ st2 : CloneState, StateInv O st2 →
        unclonedCount O st2 ≤ n → CCFConc O f st2) →
      ∃ fuel fs' st',
        (∀ g, fuel ≤ g →
          cloneFieldList g fields st = Option.some (fs', st')) ∧
        StepPost O st st' ∧
        List.Forall₂ (CloneShape st'.cloned_types) fields fs' := by
  intro fields
  induction fields with
  | nil =>
    intro st hinv _ _
    refine ⟨1, [], st, ?_, stepPost_refl O st hinv, List.Forall₂.nil⟩
    intro g hg
    cases g with
    | zero => omega
    | succ g' => rfl
  | cons f rest ih =>
    intro st hinv hcount hcc
    obtain ⟨n1, f', st1, hrun1, hpost1, hshape1⟩ :=
      hcc f (List.mem_cons_self f rest) st hinv hcount
    have hinv1 : StateInv O st1 := hpost1.2.2.2.1
    have hcount1 : unclonedCount O st1 ≤ n :=
      le_trans hpost1.2.2.2.2.1 hcount
    obtain ⟨n2, rest', st2, hrun2, hpost2, hshape2⟩ :=
      ih st1 hinv1 hcount1
        (fun g hg => hcc g (List.mem_cons_of_mem f hg))
    refine ⟨max n1 n2 + 1, f' :: rest', st2, ?_,
      stepPost_trans O hpost1 hpost2, ?_⟩
    · intro g hg
      cases g with
      | zero => omega
      | succ g' =>
        have h1 := hrun1 g' (by omega)
        have h2 := hrun2 g' (by omega)
        simp only [cloneFieldList, h1, h2]
    · exact List.Forall₂.cons (cloneShape_mono hpost2.1 hshape1) hshape2

theorem buildClonedField_total (O : List Nat) (n : Nat)
    (field : ModelField) (use_type : FieldType) (st : CloneState)
    (hinv : StateInv O st) (hcount : unclonedCount O st ≤ n)
    (hcc : ∀ f, (f ∈ field.sub_fields ∨
        field.key_field = Option.some f) →
      ∀ st2 : CloneState, StateInv O st2 → unclonedCount O st2 ≤ n →
        CCFConc O f st2) :
    ∃ fuel subs' kf' st',
      (∀ g, fuel ≤ g →
        buildClonedField g field use_type st =
          Option.some
            (.mk field.name use_type field.attrs subs' kf', st')) ∧
      StepPost O st st' ∧
      List.Forall₂ (CloneShape st'.cloned_types) field.sub_fields subs' ∧
      OptRel (CloneShape st'.cloned_types) field.key_field kf' := by
  obtain ⟨n1, subs', st1, hrun1, hpost1, hshape1⟩ :=
    cloneFieldList_total O n field.sub_fields st hinv hcount
      (fun f hf => hcc f (Or.inl hf))
  have hinv1 : StateInv O st1 := hpost1.2.2.2.1
  have hcount1 : unclonedCount O st1 ≤ n :=
    le_trans hpost1.2.2.2.2.1 hcount
  cases hkf : field.key_field with
  | none =>
    refine ⟨n1 + 1, subs', Option.none, st1, ?_, hpost1, hshape1,
      OptRel.none⟩
    intro g hg
    cases g with
    | zero => omega
    | succ g' =>
      have h1 := hrun1 g' (by omega)
      simp only [buildClonedField, h1, hkf]
  | some kf =>
    obtain ⟨n2, kf', st2, hrun2, hpost2, hshape2⟩ :=
      hcc kf (Or.inr hkf) st1 hinv1 hcount1
    refine ⟨max n1 n2 + 1, subs', Option.some kf', st2, ?_,
      stepPost_trans O hpost1 hpost2, ?_, ?_⟩
    · intro g hg
      cases g with
      | zero => omega
      | succ g' =>
        have h1 := hrun1 g' (by omega)
        have h2 := hrun2 g' (by omega)
        simp only [buildClonedField, h1, hkf, h2]
    · exact hshape1.imp fun a b hab => cloneShape_mono hpost2.1 hab
    · exact OptRel.some kf kf' hshape2

theorem mem_O_lt_nextId (O : List Nat) (st : CloneState)
    (hinv : StateInv O st) {t : Nat} (ht : t ∈ O) : t < st.nextId := by
  obtain ⟨decl, hfind, _⟩ := hinv.2.2 t ht
  exact hinv.1 (t, decl) (assocFind_some_mem hfind)

theorem pairOK_mono_pt {st st' : CloneState} {p : Nat × Nat}
    (hf1 : findType st' p.1 = findType st p.1)
    (hf2 : findType st' p.2 = findType st p.2)
    (hext : MemoExt st.cloned_types st'.cloned_types)
    (hok : pairOK st p) : pairOK st' p := by
  obtain ⟨d, d', hd, hd', hn, hf⟩ := hok
  refine ⟨d, d', ?_, ?_, hn, hf.imp fun a b hab => cloneShape_mono hext hab⟩
  · rw [hf1]
    exact hd
  · rw [hf2]
    exact hd'

theorem insert_clone_step (O : List Nat) (st : CloneState) (t : Nat)
    (decl : TypeDecl) (ht : t ∈ O)
    (hm : memoLookup st.cloned_types t = Option.none)
    (_hfind : findType st t = Option.some decl) (hinv : StateInv O st)
    (st1 : CloneState)
    (hst1 : st1 = ⟨st.types ++ [(st.nextId, decl)], st.nextId + 1,
      st.cloned_types ++ [(t, st.nextId)]⟩) :
    StateInv O st1 ∧ MemoExt st.cloned_types st1.cloned_types ∧
    (∀ u, u < st.nextId → findType st1 u = findType st u) ∧
    unclonedCount O st1 < unclonedCount O st ∧
    memoLookup st1.cloned_types t = Option.some st.nextId ∧
    findType st1 st.nextId = Option.some decl := by
  subst hst1
  have htlt : t < st.nextId := mem_O_lt_nextId O st hinv ht
  have hkeys : assocFind st.types st.nextId = Option.none := by
    cases hc : assocFind st.types st.nextId with
    | none => rfl
    | some d =>
      have hlt : st.nextId < st.nextId := hinv.1 _ (assocFind_some_mem hc)
      omega
  have hmemoIns : assocFind (st.cloned_types ++ [(t, st.nextId)]) t =
      Option.some st.nextId := by
    rw [assocFind_append_right _ hm, assocFind, if_pos rfl]
  have hframe : ∀ u, u < st.nextId →
      assocFind (st.types ++ [(st.nextId, decl)]) u = assocFind st.types u := by
    intro u hu
    cases hc : assocFind st.types u with
    | some d => exact assocFind_append_left hc
    | none =>
      rw [assocFind_append_right _ hc, assocFind,
        if_neg (show ¬ (st.nextId = u) by omega), assocFind]
  refine ⟨⟨?_, ?_, ?_⟩, memoExt_append _ _, hframe, ?_, hmemoIns, ?_⟩
  · intro p hp
    show p.1 < st.nextId + 1
    rcases List.mem_append.mp hp with hl | hr
    · have hlt : p.1 < st.nextId := hinv.1 p hl
      omega
    · rcases List.mem_singleton.mp hr with rfl
      exact Nat.lt_succ_self _
  · intro p hp
    show p.1 < st.nextId + 1 ∧ p.2 < st.nextId + 1
    rcases List.mem_append.mp hp with hl | hr
    · have hlt : p.1 < st.nextId ∧ p.2 < st.nextId := hinv.2.1 p hl
      omega
    · rcases List.mem_singleton.mp hr with rfl
      exact ⟨Nat.lt_succ_of_lt htlt, Nat.lt_succ_self _⟩
  · intro u hu
    obtain ⟨d, hd, hrefs⟩ := hinv.2.2 u hu
    refine ⟨d, ?_, hrefs⟩
    show assocFind (st.types ++ [(st.nextId, decl)]) u = Option.some d
    exact assocFind_append_left hd
  · show ((O.filter fun u =>
        (memoLookup (st.cloned_types ++ [(t, st.nextId)]) u).isNone).length <
      (O.filter fun u => (memoLookup st.cloned_types u).isNone).length)
    refine length_filter_lt ?_ t ht ?_ ?_
    · intro a _ hq
      show (memoLookup st.cloned_types a).isNone = true
      cases hma : memoLookup st.cloned_types a with
      | none => rfl
      | some x =>
        have hin : memoLookup (st.cloned_types ++ [(t, st.nextId)]) a =
            Option.some x := assocFind_append_left hma
        change (memoLookup (st.cloned_types ++ [(t, st.nextId)]) a).isNone =
          true at hq
        rw [hin] at hq
        cases hq
    · show (memoLookup st.cloned_types t).isNone = true
      rw [hm]
      rfl
    · show (memoLookup (st.cloned_types ++ [(t, st.nextId)]) t).isNone = false
      rw [show memoLookup (st.cloned_types ++ [(t, st.nextId)]) t =
        Option.some st.nextId from hmemoIns]
      rfl
  · show assocFind (st.types ++ [(st.nextId, decl)]) st.nextId = Option.some decl
    rw [assocFind_append_right _ hkeys, assocFind, if_pos rfl]

theorem set_fields_step (O : List Nat) (st2 : CloneState) (t' : Nat)
    (fields' : List ModelField) (hinv2 : StateInv O st2)
    (ht' : ∀ u ∈ O, u ≠ t') :
    StateInv O (setTypeFields st2 t' fields') ∧
    (∀ u, u ≠ t' →
      findType (setTypeFields st2 t' fields') u = findType st2 u) ∧
    (setTypeFields st2 t' fields').cloned_types = st2.cloned_types ∧
    (setTypeFields st2 t' fields').nextId = st2.nextId ∧
    unclonedCount O (setTypeFields st2 t' fields') = unclonedCount O st2 := by
  have hfr : ∀ u, u ≠ t' →
      findType (setTypeFields st2 t' fields') u = findType st2 u := by
    intro u hu
    rw [findType_setTypeFields, if_neg hu]
  refine ⟨⟨?_, ?_, ?_⟩, hfr, rfl, rfl, rfl⟩
  · exact setTypeFields_keys_bound st2 t' fields' st2.nextId hinv2.1
  · exact hinv2.2.1
  · intro u hu
    obtain ⟨d, hd, hrefs⟩ := hinv2.2.2 u hu
    exact ⟨d, by rw [hfr u (ht' u hu)]; exact hd, hrefs⟩

theorem clone_model_miss (O : List Nat) (n : Nat) (t : Nat)
    (st : CloneState) (ht : t ∈ O) (hinv : StateInv O st)
    (hcount : unclonedCount O st ≤ n)
    (hm : memoLookup st.cloned_types t = Option.none)
    (hstep : ∀ (field : ModelField) (st2 : CloneState), StateInv O st2 →
      fieldRefs field ⊆ O → unclonedCount O st2 ≤ n - 1 →
      CCFConc O field st2) :
    ∃ fuel decl fields' st2,
      findType st t = Option.some decl ∧
      (∀ g, fuel ≤ g →
        cloneFieldList g decl.fields
          ⟨st.types ++ [(st.nextId, decl)], st.nextId + 1,
            st.cloned_types ++ [(t, st.nextId)]⟩ =
          Option.some (fields', st2)) ∧
      StepPost O st (setTypeFields st2 st.nextId fields') ∧
      memoLookup (setTypeFields st2 st.nextId fields').cloned_types t =
        Option.some st.nextId := by
  obtain ⟨decl, hfind, hdeclrefs⟩ := hinv.2.2 t ht
  obtain ⟨hinv1, hext1, hframe1, hcountlt, hmemoIns, hfindt'⟩ :=
    insert_clone_step O st t decl ht hm hfind hinv _ rfl
  set st1 : CloneState := ⟨st.types ++ [(st.nextId, decl)], st.nextId + 1,
    st.cloned_types ++ [(t, st.nextId)]⟩ with hst1def
  have hone : 1 ≤ unclonedCount O st := by
    have : unclonedCount O st1 < unclonedCount O st := hcountlt
    omega
  have hcount1 : unclonedCount O st1 ≤ n - 1 := by
    have h1 : unclonedCount O st1 < unclonedCount O st := hcountlt
    omega
  obtain ⟨n2, fields', st2, hrun2, hpost12, hshape2⟩ :=
    cloneFieldList_total O (n - 1) decl.fields st1 hinv1 hcount1
      (fun f hf st2 hinv2 hcount2 =>
        hstep f st2 hinv2
          ((fieldListRefs_of_mem hf).trans hdeclrefs) hcount2)
  have hinv2 : StateInv O st2 := hpost12.2.2.2.1
  have hOnet' : ∀ u ∈ O, u ≠ st.nextId := by
    intro u hu
    have := mem_O_lt_nextId O st hinv hu
    omega
  obtain ⟨hinv3, hfr3, hmemo3, hnext3, hcount3⟩ :=
    set_fields_step O st2 st.nextId fields' hinv2 hOnet'
  have htlt : t < st.nextId := mem_O_lt_nextId O st hinv ht
  have hnext12 : st1.nextId ≤ st2.nextId := hpost12.2.1
  have hnext1 : st1.nextId = st.nextId + 1 := rfl
  have hframe12 : ∀ u, u < st1.nextId → findType st2 u = findType st1 u :=
    hpost12.2.2.1
  have hframe03 : ∀ u, u < st.nextId →
      findType (setTypeFields st2 st.nextId fields') u = findType st u := by
    intro u hu
    rw [hfr3 u (by omega), hframe12 u (by rw [hnext1]; omega), hframe1 u hu]
  have hfindt'2 : findType st2 st.nextId = Option.some decl := by
    rw [hframe12 st.nextId (by rw [hnext1]; omega)]
    exact hfindt'
  have hfindt'3 : findType (setTypeFields st2 st.nextId fields') st.nextId =
      Option.some { decl with fields := fields' } := by
    rw [findType_setTypeFields, if_pos rfl, hfindt'2]
    rfl
  have hfindt3 : findType (setTypeFields st2 st.nextId fields') t =
      Option.some decl := by
    rw [hfr3 t (by omega), hframe12 t (by rw [hnext1]; omega), hframe1 t htlt,
      hfind]
  have hmemoSt3 : (setTypeFields st2 st.nextId fields').cloned_types =
      st2.cloned_types := rfl
  have hmemoLk3 : memoLookup
      (setTypeFields st2 st.nextId fields').cloned_types t =
      Option.some st.nextId := by
    rw [hmemoSt3]
    exact hpost12.1 t st.nextId hmemoIns
  have hextFull : MemoExt st.cloned_types
      (setTypeFields st2 st.nextId fields').cloned_types := by
    rw [hmemoSt3]
    exact memoExt_trans hext1 hpost12.1
  refine ⟨n2, decl, fields', st2, hfind, hrun2, ?_, hmemoLk3⟩
  refine ⟨hextFull, by rw [hnext3]; omega, hframe03, hinv3, ?_, ?_, ?_⟩
  · rw [hcount3]
    have h12 : unclonedCount O st2 ≤ unclonedCount O st1 :=
      hpost12.2.2.2.2.1
    omega
  · intro p hp
    rw [hmemoSt3] at hp
    rcases hpost12.2.2.2.2.2.1 p hp with hin1 | ⟨hO, hge⟩
    · rcases List.mem_append.mp hin1 with hin0 | hnew
      · exact Or.inl hin0
      · rcases List.mem_singleton.mp hnew with rfl
        exact Or.inr ⟨ht, le_rfl⟩
    · exact Or.inr ⟨hO, by rw [hnext1] at hge; omega⟩
  · intro P hP
    have hP1 : ∀ p ∈ st1.cloned_types,
        pairOK st1 p ∨ p ∈ P ++ [(t, st.nextId)] := by
      intro p hp
      rcases List.mem_append.mp hp with hin0 | hnew
      · rcases hP p hin0 with hok | hinP
        · have hb := hinv.2.1 p hin0
          exact Or.inl (pairOK_mono_pt (hframe1 p.1 hb.1) (hframe1 p.2 hb.2)
            hext1 hok)
        · exact Or.inr (List.mem_append.mpr (Or.inl hinP))
      · rcases List.mem_singleton.mp hnew with rfl
        exact Or.inr (List.mem_append.mpr (Or.inr (List.mem_singleton.mpr rfl)))
    have hP2 := hpost12.2.2.2.2.2.2 (P ++ [(t, st.nextId)]) hP1
    intro p hp
    rw [hmemoSt3] at hp
    have hptOK : pairOK (setTypeFields st2 st.nextId fields')
        (t, st.nextId) := by
      refine ⟨decl, { decl with fields := fields' }, hfindt3, hfindt'3,
        rfl, ?_⟩
      show List.Forall₂
        (CloneShape (setTypeFields st2 st.nextId fields').cloned_types)
        decl.fields fields'
      rw [hmemoSt3]
      exact hshape2
    by_cases hpt : p = (t, st.nextId)
    · subst hpt
      exact Or.inl hptOK
    · rcases hP2 p hp with hok2 | hinP'
      · -- transfer pairOK from st2 to st3: p.1 and p.2 differ from st.nextId
        have hne : p.1 ≠ st.nextId ∧ p.2 ≠ st.nextId := by
          rcases hpost12.2.2.2.2.2.1 p hp with hin1 | ⟨hO, hge⟩
          · rcases List.mem_append.mp hin1 with hin0 | hnew
            · have hb := hinv.2.1 p hin0
              omega
            · rcases List.mem_singleton.mp hnew with heq
              exact absurd heq hpt
          · have h1 : p.1 < st.nextId := mem_O_lt_nextId O st hinv hO
            rw [hnext1] at hge
            omega
        exact Or.inl (pairOK_mono_pt (hfr3 p.1 hne.1) (hfr3 p.2 hne.2)
          (by rw [hmemoSt3]; exact memoExt_refl _) hok2)
      · rcases List.mem_append.mp hinP' with hinP | hnew
        · exact Or.inr hinP
        · rcases List.mem_singleton.mp hnew with heq
          exact absurd heq hpt

theorem create_cloned_field_total (O : List Nat) :
    ∀ (n k : Nat) (field : ModelField) (st : CloneState),
      sizeOf field ≤ k → StateInv O st → fieldRefs field ⊆ O →
      unclonedCount O st ≤ n → CCFConc O field st := by
  intro n
  induction n using Nat.strong_induction_on with
  | _ n ihn =>
    intro k
    induction k using Nat.strong_induction_on with
    | _ k ihk =>
      intro field st hsize hinv hrefs hcount
      cases field with
      | mk nm ty a subs kf =>
        have hccSub : ∀ f, (f ∈ (ModelField.mk nm ty a subs kf).sub_fields ∨
            (ModelField.mk nm ty a subs kf).key_field = Option.some f) →
            ∀ st2 : CloneState, StateInv O st2 → unclonedCount O st2 ≤ n →
            CCFConc O f st2 := by
          intro f hf st2 hinv2 hcount2
          have hsz : sizeOf f < sizeOf (ModelField.mk nm ty a subs kf) := by
            rcases hf with hf | hf
            · have h1 : sizeOf f < sizeOf subs := List.sizeOf_lt_of_mem hf
              simp
              omega
            · have hkfeq : kf = Option.some f := hf
              subst hkfeq
              simp
              omega
          have hrefs2 : fieldRefs f ⊆ O := by
            rcases hf with hf | hf
            · exact ((fieldListRefs_of_mem hf).trans
                (sub_fields_refs_subset nm ty a subs kf)).trans hrefs
            · have hkfeq : kf = Option.some f := hf
              subst hkfeq
              exact (key_field_refs_subset nm ty a subs f).trans hrefs
          exact ihk (sizeOf f) (by omega) f st2 le_rfl hinv2 hrefs2 hcount2
        cases ty with
        | atom b =>
          obtain ⟨n1, subs', kf', st1, hrun1, hpost1, hsubs', hkf'⟩ :=
            buildClonedField_total O n (.mk nm (.atom b) a subs kf)
              (.atom b) st hinv hcount hccSub
          refine ⟨n1 + 1, .mk nm (.atom b) a subs' kf', st1, ?_, hpost1, ?_⟩
          · intro g hg
            cases g with
            | zero => omega
            | succ g' =>
              have h1 := hrun1 g' (by omega)
              simp only [create_cloned_field, ModelField.type_,
                Bool.false_eq_true, if_false]
              exact h1
          · exact CloneShape.mk nm (.atom b) (.atom b) a subs subs' kf kf'
              rfl hsubs' hkf'
        | model t =>
          have htO : t ∈ O := by
            refine hrefs ?_
            rw [fieldRefs_eq]
            simp
          cases hmlk : memoLookup st.cloned_types t with
          | some t' =>
            obtain ⟨n1, subs', kf', st1, hrun1, hpost1, hsubs', hkf'⟩ :=
              buildClonedField_total O n (.mk nm (.model t) a subs kf)
                (.model t') st hinv hcount hccSub
            refine ⟨n1 + 1, .mk nm (.model t') a subs' kf', st1, ?_,
              hpost1, ?_⟩
            · intro g hg
              cases g with
              | zero => omega
              | succ g' =>
                have h1 := hrun1 g' (by omega)
                simp only [create_cloned_field, ModelField.type_,
                  Bool.false_eq_true, if_false, hmlk]
                exact h1
            · exact CloneShape.mk nm (.model t) (.model t') a subs subs'
                kf kf' ⟨t', hpost1.1 t t' hmlk, rfl⟩ hsubs' hkf'
          | none =>
            have hone : 1 ≤ n := by
              have hmem : t ∈ O.filter
                  (fun u => (memoLookup st.cloned_types u).isNone) :=
                List.mem_filter.mpr ⟨htO, by rw [hmlk]; rfl⟩
              have hlen : 0 < unclonedCount O st :=
                List.length_pos_of_mem hmem
              omega
            obtain ⟨n2, decl, fields', st2, hfind, hrunCFL, hpost03,
              hmemoLk⟩ :=
              clone_model_miss O n t st htO hinv hcount hmlk
                (fun f st2 hinv2 hrefs2 hcount2 =>
                  ihn (n - 1) (by omega) (sizeOf f) f st2 le_rfl hinv2
                    hrefs2 hcount2)
            obtain ⟨n3, subs', kf', st4, hrun3, hpost34, hsubs', hkf'⟩ :=
              buildClonedField_total O n (.mk nm (.model t) a subs kf)
                (.model st.nextId) (setTypeFields st2 st.nextId fields')
                hpost03.2.2.2.1 (le_trans hpost03.2.2.2.2.1 hcount) hccSub
            refine ⟨max n2 n3 + 1, .mk nm (.model st.nextId) a subs' kf',
              st4, ?_, stepPost_trans O hpost03 hpost34, ?_⟩
            · intro g hg
              cases g with
              | zero => omega
              | succ g' =>
                have h2 := hrunCFL g' (by omega)
                have h3 := hrun3 g' (by omega)
                simp only [create_cloned_field, ModelField.type_,
                  Bool.false_eq_true, if_false, hmlk, hfind, h2]
                exact h3
            · exact CloneShape.mk nm (.model t) (.model st.nextId) a subs
                subs' kf kf'
                ⟨st.nextId, hpost34.1 t st.nextId hmemoLk, rfl⟩ hsubs' hkf'
        | dcModel t =>
          have htO : t ∈ O := by
            refine hrefs ?_
            rw [fieldRefs_eq]
            simp
          cases hmlk : memoLookup st.cloned_types t with
          | some t' =>
            obtain ⟨n1, subs', kf', st1, hrun1, hpost1, hsubs', hkf'⟩ :=
              buildClonedField_total O n (.mk nm (.dcModel t) a subs kf)
                (.model t') st hinv hcount hccSub
            refine ⟨n1 + 1, .mk nm (.model t') a subs' kf', st1, ?_,
              hpost1, ?_⟩
            · intro g hg
              cases g with
              | zero => omega
              | succ g' =>
                have h1 := hrun1 g' (by omega)
                simp only [create_cloned_field, ModelField.type_,
                  Bool.false_eq_true, if_false, hmlk]
                exact h1
            · exact CloneShape.mk nm (.dcModel t) (.model t') a subs subs'
                kf kf' ⟨t', hpost1.1 t t' hmlk, rfl⟩ hsubs' hkf'
          | none =>
            have hone : 1 ≤ n := by
              have hmem : t ∈ O.filter
                  (fun u => (memoLookup st.cloned_types u).isNone) :=
                List.mem_filter.mpr ⟨htO, by rw [hmlk]; rfl⟩
              have hlen : 0 < unclonedCount O st :=
                List.length_pos_of_mem hmem
              omega
            obtain ⟨n2, decl, fields', st2, hfind, hrunCFL, hpost03,
              hmemoLk⟩ :=
              clone_model_miss O n t st htO hinv hcount hmlk
                (fun f st2 hinv2 hrefs2 hcount2 =>
                  ihn (n - 1) (by omega) (sizeOf f) f st2 le_rfl hinv2
                    hrefs2 hcount2)
            obtain ⟨n3, subs', kf', st4, hrun3, hpost34, hsubs', hkf'⟩ :=
              buildClonedField_total O n (.mk nm (.dcModel t) a subs kf)
                (.model st.nextId) (setTypeFields st2 st.nextId fields')
                hpost03.2.2.2.1 (le_trans hpost03.2.2.2.2.1 hcount) hccSub
            refine ⟨max n2 n3 + 1, .mk nm (.model st.nextId) a subs' kf',
              st4, ?_, stepPost_trans O hpost03 hpost34, ?_⟩
            · intro g hg
              cases g with
              | zero => omega
              | succ g' =>
                have h2 := hrunCFL g' (by omega)
                have h3 := hrun3 g' (by omega)
                simp only [create_cloned_field, ModelField.type_,
                  Bool.false_eq_true, if_false, hmlk, hfind, h2]
                exact h3
            · exact CloneShape.mk nm (.dcModel t) (.model st.nextId) a subs
                subs' kf kf'
                ⟨st.nextId, hpost34.1 t st.nextId hmemoLk, rfl⟩ hsubs' hkf'

/-- C5: under pydantic v1 `create_cloned_field` terminates on every field
of every well-formed class heap — including self-referential models —
because a model type is recorded in `cloned_types` before its fields are
cloned and reused on every later encounter: some fuel suffices (and any
larger fuel gives the same answer), the returned field is structurally
equal to the original (same name and attributes, sub-fields and key field
cloned recursively, model types mapped to their clones), and every entry
of the final memo pairs an original class with a structurally equal clone
class.  `st.cloned_types = []` is the `cloned_types=None` default of the
external call. -/
theorem create_cloned_field_terminates (O : List Nat) (field : ModelField)
    (st : CloneState) (hinv : StateInv O st) (hrefs : fieldRefs field ⊆ O)
    (hmemo : st.cloned_types = []) :
    ∃ fuel f' st',
      (∀ g, fuel ≤ g →
        create_cloned_field g false field st = Option.some (f', st')) ∧
      CloneShape st'.cloned_types field f' ∧
      (∀ p ∈ st'.cloned_types, pairOK st' p) := by
  obtain ⟨fuel, f', st', hrun, hpost, hshape⟩ :=
    create_cloned_field_total O (unclonedCount O st) (sizeOf field) field
      st le_rfl hinv hrefs le_rfl
  refine ⟨fuel, f', st', hrun, hshape, ?_⟩
  intro p hp
  have hP := hpost.2.2.2.2.2.2 []
    (by intro q hq; rw [hmemo] at hq; cases hq) p hp
  rcases hP with hok | hfalse
  · exact hok
  · cases hfalse

/-- Witness for C5: a self-referential model (class 0 "Node" whose field
"next" has declared type class 0) is cloned from the default empty
memo. -/
theorem create_cloned_field_terminates_witness :
    ∃ fuel f' st',
      (∀ g, fuel ≤ g →
        create_cloned_field g false
          (.mk "root" (.model 0) 3 [] Option.none)
          ⟨[(0, ⟨"Node", [.mk "next" (.model 0) 7 [] Option.none]⟩)], 1,
            []⟩ = Option.some (f', st')) ∧
      CloneShape st'.cloned_types
        (.mk "root" (.model 0) 3 [] Option.none) f' ∧
      (∀ p ∈ st'.cloned_types, pairOK st' p) :=
  create_cloned_field_terminates [0]
    (.mk "root" (.model 0) 3 [] Option.none)
    ⟨[(0, ⟨"Node", [.mk "next" (.model 0) 7 [] Option.none]⟩)], 1, []⟩
    (by
      refine ⟨by decide, ?_⟩
      refine ⟨(by intro p hp; cases hp), ?_⟩
      intro u hu
      rcases List.mem_singleton.mp hu with rfl
      exact ⟨⟨"Node", [.mk "next" (.model 0) 7 [] Option.none]⟩, rfl,
        by decide⟩)
    (by decide) rfl

/-- C2 counterexample: under pydantic v2 `create_cloned_field` returns its
argument itself with the state untouched — no clone is made, no fresh
class is allocated, and the returned record's declared type is still the
original class 0 — so it is not a deep copy distinct from its argument. -/
theorem create_cloned_field_v2_no_copy :
    create_cloned_field 1 true (.mk "root" (.model 0) 3 [] Option.none)
      ⟨[(0, ⟨"Node", [.mk "next" (.model 0) 7 [] Option.none]⟩)], 1, []⟩ =
      Option.some (.mk "root" (.model 0) 3 [] Option.none,
        ⟨[(0, ⟨"Node", [.mk "next" (.model 0) 7 [] Option.none]⟩)], 1,
          []⟩) ∧
    (ModelField.mk "root" (.model 0) 3 [] Option.none).type_ =
      .model 0 :=
  ⟨rfl, rfl⟩

/-- C2 amended: under pydantic v2 `create_cloned_field` returns its
argument unchanged; under pydantic v1 it returns a deep copy — recursing
into sub-fields and the key field — every class object that existed
before the call is left unchanged (so the original field's model type is
unaffected), and a model-typed field's clone uses a freshly allocated
class distinct from every pre-existing class, so the clone can be
modified without affecting the original declaration. -/
theorem create_cloned_field_frame (O : List Nat) (field : ModelField)
    (st : CloneState) (hinv : StateInv O st) (hrefs : fieldRefs field ⊆ O)
    (hmemo : st.cloned_types = []) :
    (∀ g, 1 ≤ g →
      create_cloned_field g true field st = Option.some (field, st)) ∧
    ∃ fuel f' st',
      (∀ g, fuel ≤ g →
        create_cloned_field g false field st = Option.some (f', st')) ∧
      (∀ u, u < st.nextId → findType st' u = findType st u) ∧
      CloneShape st'.cloned_types field f' ∧
      (∀ t, field.type_ = .model t ∨ field.type_ = .dcModel t →
        ∃ t', f'.type_ = .model t' ∧ st.nextId ≤ t' ∧
          memoLookup st'.cloned_types t = Option.some t') := by
  constructor
  · intro g hg
    cases g with
    | zero => omega
    | succ g' => rfl
  · obtain ⟨fuel, f', st', hrun, hpost, hshape⟩ :=
      create_cloned_field_total O (unclonedCount O st) (sizeOf field)
        field st le_rfl hinv hrefs le_rfl
    refine ⟨fuel, f', st', hrun, hpost.2.2.1, hshape, ?_⟩
    intro t hty
    cases field with
    | mk nm ty a subs kf =>
      have htyeq : ty = .model t ∨ ty = .dcModel t := hty
      cases hshape with
      | mk nm ty ty' a subs subs' kf kf' htc hsubs hkf =>
        have hex : ∃ t', memoLookup st'.cloned_types t = Option.some t' ∧
            ty' = .model t' := by
          rcases htyeq with rfl | rfl
          · exact htc
          · exact htc
        obtain ⟨t', hlk, rfl⟩ := hex
        refine ⟨t', rfl, ?_, hlk⟩
        have hmem := assocFind_some_mem hlk
        rcases hpost.2.2.2.2.2.1 (t, t') hmem with hin | ⟨_, hge⟩
        · rw [hmemo] at hin
          cases hin
        · exact hge

/-- Witness for the amended C2 at the self-referential "Node" model: the
original class 0 is unchanged and the clone's type is the fresh class. -/
theorem create_cloned_field_frame_witness :
    (∀ g, 1 ≤ g →
      create_cloned_field g true
        (.mk "root" (.model 0) 3 [] Option.none)
        ⟨[(0, ⟨"Node", [.mk "next" (.model 0) 7 [] Option.none]⟩)], 1,
          []⟩ =
        Option.some (.mk "root" (.model 0) 3 [] Option.none,
          ⟨[(0, ⟨"Node", [.mk "next" (.model 0) 7 [] Option.none]⟩)], 1,
            []⟩)) ∧
    ∃ fuel f' st',
      (∀ g, fuel ≤ g →
        create_cloned_field g false
          (.mk "root" (.model 0) 3 [] Option.none)
          ⟨[(0, ⟨"Node", [.mk "next" (.model 0) 7 [] Option.none]⟩)], 1,
            []⟩ = Option.some (f', st')) ∧
      (∀ u, u < 1 → findType st' u =
        findType ⟨[(0, ⟨"Node",
          [.mk "next" (.model 0) 7 [] Option.none]⟩)], 1, []⟩ u) ∧
      CloneShape st'.cloned_types
        (.mk "root" (.model 0) 3 [] Option.none) f' ∧
      (∀ t, (ModelField.mk "root" (.model 0) 3 []
          Option.none).type_ = .model t ∨
          (ModelField.mk "root" (.model 0) 3 []
            Option.none).type_ = .dcModel t →
        ∃ t', f'.type_ = .model t' ∧ 1 ≤ t' ∧
          memoLookup st'.cloned_types t = Option.some t') :=
  create_cloned_field_frame [0]
    (.mk "root" (.model 0) 3 [] Option.none)
    ⟨[(0, ⟨"Node", [.mk "next" (.model 0) 7 [] Option.none]⟩)], 1, []⟩
    (by
      refine ⟨by decide, ?_⟩
      refine ⟨(by intro p hp; cases hp), ?_⟩
      intro u hu
      rcases List.mem_singleton.mp hu with rfl
      exact ⟨⟨"Node", [.mk "next" (.model 0) 7 [] Option.none]⟩, rfl,
        by decide⟩)
    (by decide) rfl

end Cloning

end FastapiUtils
